import Mathlib

/-!
# Verification of the chunker and FAISS vector-index of `rag_chromadb_demo`

Shallow embedding of `src/loader/chunker.py` and `src/faiss_store/faiss_client.py`.
Text is modelled as `List Char` (Python strings are sequences of code points and
all slicing in the source is by character position).  Python `int` parameters are
modelled as `Int`; character counts are `Nat`.  Fallible functions return
`Except`.  External collaborators (the OpenAI embedding call, the FAISS
`IndexFlatL2` library, the filesystem) are abstracted exactly where the source
calls them, as described in the doc comment of each definition.
-/

set_option linter.unusedVariables false

/-! ## Chunker (`src/loader/chunker.py`) -/

/-- Error raised by `chunk_text`'s parameter validation
(`raise ValueError(...)` in the source). -/
inductive ChunkError where
  | InvalidParameter (msg : String)
  deriving DecidableEq

/-- Characters removed by Python's `str.strip()` (its default whitespace set). -/
def isPySpace (c : Char) : Bool :=
  c == ' ' || c == '\t' || c == '\n' || c == '\r' || c == '\x0b' || c == '\x0c'

/-- Python `str.strip()`: remove leading and trailing whitespace. -/
def strip (t : List Char) : List Char :=
  ((t.dropWhile isPySpace).reverse.dropWhile isPySpace).reverse

/-- The `while start < len(text)` loop of `chunk_text` (chunker.py lines 49-67),
viewed on suffixes: at loop entry with position `start`, the remaining text is
`text[start:]`; the emitted chunk is `text[start:start+chunk_size]` i.e.
`take cs` of the suffix, and the next suffix is obtained by dropping
`chunk_size - overlap` characters.  The step is passed as `s1` with
`step = s1 + 1`, making its positivity (guaranteed by the `overlap < chunk_size`
validation) structural.  `fuel` bounds the iteration count; it is called with
`fuel = text.length`, which suffices because every iteration consumes at least
one character of the suffix. -/
def slideF (cs s1 : Nat) : Nat → List Char → List (List Char)
  | _, [] => []
  | 0, t => []
  | fuel + 1, t => t.take cs :: slideF cs s1 fuel (t.drop (s1 + 1))

/-- `chunk_text(text, chunk_size, overlap)` (chunker.py lines 14-67):
validates the parameters, returns `[text]` when the text fits in one chunk,
otherwise slides a window of `chunk_size` characters advancing by
`chunk_size - overlap`. -/
def chunk_text (text : List Char) (chunk_size overlap : Int) :
    Except ChunkError (List (List Char)) :=
  if chunk_size ≤ 0 then
    .error (.InvalidParameter "chunk_size must be greater than 0")
  else if overlap < 0 then
    .error (.InvalidParameter "overlap cannot be negative")
  else if chunk_size ≤ overlap then
    .error (.InvalidParameter "overlap must be less than chunk_size")
  else if (text.length : Int) ≤ chunk_size then .ok [text]
  else .ok (slideF chunk_size.toNat (chunk_size.toNat - overlap.toNat - 1) text.length text)

/-- `sep` is a prefix of `t` (character-wise). -/
def leadsWith : List Char → List Char → Bool
  | [], _ => true
  | _ :: _, [] => false
  | a :: s, b :: t => a == b && leadsWith s t

/-- Position of the first occurrence of `sep` in `t`; `none` when absent.
`(findSep sep t).isSome` models Python's `separator in text`. -/
def findSep (sep : List Char) : List Char → Option Nat
  | [] => if leadsWith sep [] then some 0 else none
  | t@(_ :: rest) =>
    if leadsWith sep t then some 0 else (findSep sep rest).map (· + 1)

/-- Worker for `splitOnSeq`: scans `t` left to right, accumulating the current
part (reversed) in `cur`, emitting a part at each non-overlapping occurrence of
`sep`.  `fuel = t.length` suffices since each step consumes at least one
character (the separators used are nonempty). -/
def splitAux (sep : List Char) : Nat → List Char → List Char → List (List Char)
  | _, [], cur => [cur.reverse]
  | 0, t, cur => [cur.reverse ++ t]
  | fuel + 1, t@(c :: rest), cur =>
    if leadsWith sep t then cur.reverse :: splitAux sep fuel (t.drop sep.length) []
    else splitAux sep fuel rest (c :: cur)

/-- Python `text.split(separator)` for a nonempty separator: split at each
leftmost non-overlapping occurrence; always returns at least one (possibly
empty) part, including a trailing empty part when the text ends with the
separator. -/
def splitOnSeq (sep t : List Char) : List (List Char) :=
  splitAux sep t.length t []

/-- `if current_chunk: result.append(current_chunk.strip())` — the flush of the
running chunk in `split_text`'s accumulation loop (chunker.py lines 135-137 and
152-154): a nonempty running chunk is emitted stripped of surrounding
whitespace. -/
def flushOf (cur : List Char) : List (List Char) :=
  if cur = [] then [] else [strip cur]

/-- `part_with_sep = part + separator if part != parts[-1] else part`
(chunker.py line 129): the separator is re-attached to every part that is not
*equal in value* to the last part (`lastVal` is `parts[-1]`). -/
def part_with_sep (sep lastVal part : List Char) : List Char :=
  if part = lastVal then part else part ++ sep

/-- The `for part in parts` accumulation loop of `split_text` (chunker.py lines
124-156).  `handleBig` is what the source does to an oversized part: recurse
into `split_text` with the remaining separators, or fall back to `chunk_text`
when none remain. -/
def assembleGo (csI : Int) (handleBig : List Char → Except ChunkError (List (List Char)))
    (sep lastVal : List Char) :
    List (List Char) → List Char → Except ChunkError (List (List Char))
  | [], cur => .ok (flushOf cur)
  | part :: more, cur =>
    if ((cur.length + (part_with_sep sep lastVal part).length : Nat) : Int) ≤ csI then
      assembleGo csI handleBig sep lastVal more (cur ++ part_with_sep sep lastVal part)
    else if csI < ((part_with_sep sep lastVal part).length : Int) then
      match handleBig (part_with_sep sep lastVal part) with
      | .error e => .error e
      | .ok big =>
        match assembleGo csI handleBig sep lastVal more [] with
        | .error e => .error e
        | .ok tail => .ok (flushOf cur ++ big ++ tail)
    else
      match assembleGo csI handleBig sep lastVal more (part_with_sep sep lastVal part) with
      | .error e => .error e
      | .ok tail => .ok (flushOf cur ++ tail)

/-- The recursive inner function `split_text(text, separators)` of
`chunk_text_smart` (chunker.py lines 110-159): empty text gives no chunks,
text that fits gives itself, otherwise the first separator present in the text
is used to split and reassemble parts (`assembleGo`); when no separator of the
list occurs in the text, fall back to fixed-width `chunk_text`.  The closure
variables `chunk_size` and `overlap` are passed explicitly as `csI`, `ovI`.
`separators.index(separator) + 1 :` equals the tail after the current
separator because the traversal takes the first present separator of the list
(the default separator list is duplicate-free). -/
def split_text (csI ovI : Int) :
    List (List Char) → List Char → Except ChunkError (List (List Char))
  | [], text =>
    if text = [] then .ok []
    else if (text.length : Int) ≤ csI then .ok [text]
    else chunk_text text csI ovI
  | sep :: rest, text =>
    if text = [] then .ok []
    else if (text.length : Int) ≤ csI then .ok [text]
    else if (findSep sep text).isSome then
      assembleGo csI
        (fun pws =>
          if rest.isEmpty then chunk_text pws csI ovI
          else split_text csI ovI rest pws)
        sep ((splitOnSeq sep text).getLastD []) (splitOnSeq sep text) []
    else split_text csI ovI rest text

/-- The default separator list of `chunk_text_smart` (chunker.py lines 91-101):
paragraph break, line break, sentence punctuation followed by space, semicolon,
comma, space. -/
def defaultSeparators : List (List Char) :=
  [['\n', '\n'], ['\n'], ['.', ' '], ['!', ' '], ['?', ' '], [';', ' '], [',', ' '], [' ']]

/-- `chunk_text_smart(text, chunk_size, overlap)` (chunker.py lines 70-167)
with the default separators: short text is returned whole (before any
parameter validation — the function has none of its own), otherwise
`split_text` runs and empty-after-strip chunks are filtered out at the end. -/
def chunk_text_smart (text : List Char) (chunk_size overlap : Int) :
    Except ChunkError (List (List Char)) :=
  if (text.length : Int) ≤ chunk_size then .ok [text]
  else
    match split_text chunk_size overlap defaultSeparators text with
    | .error e => .error e
    | .ok chunks => .ok (chunks.filter (fun c => !(strip c).isEmpty))

/-- Window start positions of the fixed-width slicer: `0, step, 2*step, ...`
while `< len`; there are `⌈len / step⌉` of them. -/
def windowStarts (len step : Nat) : List Nat :=
  (List.range ((len + step - 1) / step)).map (fun j => j * step)

/-! ## FAISS client (`src/faiss_store/faiss_client.py`)

The metadata dictionaries attached to each chunk are those built by
`create_chunks_with_metadata` (chunker.py lines 196-207): keys `source`,
`type`, `chunk_id`, `total_chunks`, `char_count`; they are modelled as a
closed structure.  Embedding vectors are fixed-length numeric rows; the exact
numeric type is irrelevant to the claims (ordering and exact round-tripping),
so rows are modelled as `List Int`. -/

/-- One chunk's metadata dictionary, as produced by
`create_chunks_with_metadata`. -/
structure Metadata where
  source : String
  type : String
  chunk_id : Nat
  total_chunks : Nat
  char_count : Nat
  deriving DecidableEq

/-- Default used only to totalise list indexing (`self.metadatas[idx]`); every
access proved about is in range. -/
def Metadata.dflt : Metadata := ⟨"", "", 0, 0, 0⟩

/-- The in-memory state of a `FAISSClient` (faiss_client.py lines 38-44):
the FAISS flat index is `None` or the ordered list of stored vector rows
(`IndexFlatL2` keeps vectors in insertion order; `ntotal` is their number);
`documents`, `metadatas` and `ids` are the parallel Python lists; `dimension`
defaults to 1536 in `__init__`. -/
structure FAISSState where
  index : Option (List (List Int))
  documents : List String
  metadatas : List Metadata
  ids : List String
  dimension : Nat
  deriving DecidableEq

/-- A client as constructed by `__init__`: no index, empty parallel lists. -/
def emptyState : FAISSState := ⟨none, [], [], [], 1536⟩

/-- The index's entry count: the parallel lists grow in lockstep with the
index; `get_index_stats` reports `document_count = len(self.documents)`. -/
def FAISSState.entryCount (s : FAISSState) : Nat := s.documents.length

/-- `create_index(dimension)` (faiss_client.py lines 57-69): fresh empty flat
index of the given dimension, parallel lists cleared. -/
def create_index (s : FAISSState) (dimension : Nat) : FAISSState :=
  { s with dimension := dimension, index := some [], documents := [],
           metadatas := [], ids := [] }

/-- The pickled payload written by `save_index` and read by `load_index`
(faiss_client.py lines 106-112): the three parallel lists plus the dimension.
`dimension` is `Option` because `load_index` reads it with
`data.get('dimension', 1536)`. -/
structure PickleData where
  documents : List String
  metadatas : List Metadata
  ids : List String
  dimension : Option Nat
  deriving DecidableEq

/-- What `load_index` can find on disk: no image (one or both of the `.index`
and `.pkl` files missing), an undecodable image (`faiss.read_index` or
`pickle.load` raises), or a decodable image consisting of the vector rows of
the index file plus the pickled payload. -/
inductive DiskState where
  | absent
  | corrupt
  | image (vectors : List (List Int)) (data : PickleData)
  deriving DecidableEq

/-- `raise Exception("Индекс не создан")` in `save_index`. -/
inductive SaveError where
  | IndexNotCreated
  deriving DecidableEq

/-- `save_index()` (faiss_client.py lines 97-113): fails when no index exists,
otherwise writes the index file (the vectors) and the pickle (the parallel
lists and the dimension); the serialisation itself is the external
`faiss.write_index` / `pickle.dump`, modelled as packaging the state into a
`DiskState.image`. -/
def save_index (s : FAISSState) : Except SaveError DiskState :=
  match s.index with
  | none => .error .IndexNotCreated
  | some vecs => .ok (.image vecs ⟨s.documents, s.metadatas, s.ids, some s.dimension⟩)

/-- `load_index()` (faiss_client.py lines 71-95): returns `false` when the
files are not both present; when decoding raises, the exception is caught,
the error is printed and `false` is returned (state unchanged — decoding is
modelled as atomic); on success the state is replaced by the decoded image
(`dimension` read with default 1536) and `true` is returned. -/
def load_index (s : FAISSState) : DiskState → FAISSState × Bool
  | .absent => (s, false)
  | .corrupt => (s, false)
  | .image vecs data =>
    ({ index := some vecs, documents := data.documents, metadatas := data.metadatas,
       ids := data.ids, dimension := data.dimension.getD 1536 }, true)

/-- The error the spec assigns to an unreadable persisted image. -/
inductive RestoreError where
  | CorruptImage
  deriving DecidableEq

/-- Modelled from the spec: `restore() -> boolean` "loads a previously
persisted image if one exists at the expected location; returns false (leaving
the index empty/uninitialized) if no image exists; fails with `CorruptImage`
if an image exists but cannot be decoded."  Stated only to compare the source's
`load_index` against it; it is not a translation of source code. -/
def restoreSpec (s : FAISSState) : DiskState → Except RestoreError (FAISSState × Bool)
  | .absent => .ok (s, false)
  | .corrupt => .error .CorruptImage
  | .image vecs data =>
    .ok ({ index := some vecs, documents := data.documents,
           metadatas := data.metadatas, ids := data.ids,
           dimension := data.dimension.getD 1536 }, true)

/-- The ids generated by `add_documents` when none are supplied
(faiss_client.py lines 190-192): `doc_0 .. doc_{n-1}` for a batch of `n`
texts, independent of any prior state. -/
def genIds (n : Nat) : List String :=
  (List.range n).map (fun i => "doc_" ++ toString i)

/-- `add_documents(texts, metadatas, ids)` (faiss_client.py lines 162-216).
The OpenAI embedding call is the abstracted external capability: its result
(one vector row per text, in order) is the `embeddings` argument.  API-key
handling and the trailing `save_index()` disk write are outside the state
transition.  If no index exists, `create_index(embeddings.shape[1])` first
resets the state (`shape[1]` is the row length); then the vectors are appended
to the index and the three parallel lists are extended.  No id check of any
kind is performed. -/
def add_documents (s : FAISSState) (texts : List String) (metadatas : List Metadata)
    (idsArg : Option (List String)) (embeddings : List (List Int)) : FAISSState :=
  let ids := idsArg.getD (genIds texts.length)
  let s1 := match s.index with
    | none => create_index s (embeddings.headD []).length
    | some _ => s
  { s1 with
      index := some (s1.index.getD [] ++ embeddings),
      documents := s1.documents ++ texts,
      metadatas := s1.metadatas ++ metadatas,
      ids := s1.ids ++ ids }

/-- `raise Exception("Индекс пуст или не загружен")` in `search`. -/
inductive SearchError where
  | EmptyIndex
  deriving DecidableEq

/-- Squared Euclidean distance between two rows of equal length — the metric
of `faiss.IndexFlatL2`. -/
def sqDist (q v : List Int) : Int :=
  (List.zipWith (fun a b => (a - b) * (a - b)) q v).sum

/-- Candidate ordering of the flat index: ascending distance, ties broken by
insertion position.  A candidate is `(original position, distance)`. -/
def candLE (a b : Nat × Int) : Prop :=
  a.2 < b.2 ∨ (a.2 = b.2 ∧ a.1 ≤ b.1)

instance : DecidableRel candLE := fun a b =>
  inferInstanceAs (Decidable (a.2 < b.2 ∨ (a.2 = b.2 ∧ a.1 ≤ b.1)))

instance : IsTrans (Nat × Int) candLE :=
  ⟨by intro a b c hab hbc; unfold candLE at *; omega⟩

instance : IsTotal (Nat × Int) candLE :=
  ⟨by intro a b; unfold candLE; omega⟩

/-- Modelled from the spec for the external `self.index.search` call: the flat
(exhaustive) index ranks every stored vector by ascending squared Euclidean
distance to the query, ties broken by insertion order ("stable by insertion
order (lower original index position wins)"); `search(q, m)` then returns the
first `m` of this ranking.  Sorting by the lexicographic order `candLE` on
(distance, position) realises exactly that ranking, since positions are
distinct. -/
def rankedCandidates (vecs : List (List Int)) (q : List Int) : List (Nat × Int) :=
  List.insertionSort candLE (vecs.enum.map (fun p => (p.1, sqDist q p.2)))

/-- The `where` filter of `search` (faiss_client.py lines 266-270): an absent
filter accepts everything; a present one is a boolean predicate on the
metadata (the source's subset test `all(metadata.get(k) == v ...)` is one such
predicate). -/
def passWhere (w : Option (Metadata → Bool)) (m : Metadata) : Bool :=
  match w with
  | none => true
  | some f => f m

/-- Result triple for candidate `c`: the stored text, its metadata and the
raw squared distance (faiss_client.py lines 272-274). -/
def toTriple (s : FAISSState) (c : Nat × Int) : String × Metadata × Int :=
  (s.documents.getD c.1 "", s.metadatas.getD c.1 Metadata.dflt, c.2)

/-- The `for dist, idx in zip(...)` collection loop of `search`
(faiss_client.py lines 260-277): walk the ranked candidates in order, skip
those failing the filter, append the triple of each passing one, and break as
soon as `n_results` have been collected.  (`idx == -1` never occurs since the
candidate count never exceeds `ntotal`.)  `acc` holds the collected triples in
reverse. -/
def collectLoop (s : FAISSState) (w : Option (Metadata → Bool)) (k : Nat) :
    List (Nat × Int) → List (String × Metadata × Int) → List (String × Metadata × Int)
  | [], acc => acc.reverse
  | c :: rest, acc =>
    if passWhere w (s.metadatas.getD c.1 Metadata.dflt) then
      let acc' := toTriple s c :: acc
      if k ≤ acc'.length then acc'.reverse else collectLoop s w k rest acc'
    else collectLoop s w k rest acc

/-- `search(query, n_results, where)` (faiss_client.py lines 218-285): fails
when the index is `None` or empty; otherwise the query is embedded (external,
abstracted as the `q` argument), the flat index is asked for the
`min(n_results * 2, ntotal)` nearest candidates, and the filter loop collects
at most `n_results` passing triples.  The source returns the three parallel
result lists in a dict; they are modelled as a list of triples. -/
def FAISSState.search (s : FAISSState) (q : List Int) (k : Nat)
    (w : Option (Metadata → Bool)) :
    Except SearchError (List (String × Metadata × Int)) :=
  match s.index with
  | none => .error .EmptyIndex
  | some vecs =>
    if vecs.length = 0 then .error .EmptyIndex
    else .ok (collectLoop s w k ((rankedCandidates vecs q).take (min (k * 2) vecs.length)) [])

/-- Concrete three-entry state used by witnesses: dimension 1, vectors
`[0]`, `[3]`, `[1]` with texts `A`, `B`, `C`. -/
def witMd (i : Nat) : Metadata := ⟨"w.txt", "txt", i, 3, 1⟩

/-- A populated index state for witnesses. -/
def witState : FAISSState :=
  ⟨some [[0], [3], [1]], ["A", "B", "C"], [witMd 0, witMd 1, witMd 2],
   ["doc_0", "doc_1", "doc_2"], 1⟩

/-- A one-entry state whose single id is `doc_0`, as produced by a first
`add_documents` call without explicit ids. -/
def oneDocState : FAISSState :=
  ⟨some [[7]], ["t0"], [witMd 0], ["doc_0"], 1⟩

/-! ## Theorems -/

/-! ### Index mutation: duplicate ids (C1, C10) -/

/-- C1, counterexample.  `oneDocState` already holds id `doc_0`; adding one more
document without explicit ids generates `doc_0` again, yet `add_documents`
succeeds, `entry_count` changes from 1 to 2, and the duplicate id is stored —
refuting "the add operation fails with DuplicateId and the index's entry_count
is unchanged". -/
theorem claim_C1_counterexample :
    oneDocState.entryCount = 1 ∧
    (add_documents oneDocState ["t1"] [witMd 1] none [[9]]).entryCount = 2 ∧
    (add_documents oneDocState ["t1"] [witMd 1] none [[9]]).ids = ["doc_0", "doc_0"] :=
  ⟨rfl, by decide, by decide⟩

/-- C1, amended: `add_documents` performs no duplicate-id check at all — for
every state holding an index and every batch (with or without explicit ids,
duplicated or not), the whole batch is appended: `entry_count` grows by the
batch size, the ids (given, or generated `doc_i`) are appended and the vectors
are appended to the index. -/
theorem claim_C1_amended_add_appends (s : FAISSState) (vecs : List (List Int))
    (texts : List String) (mds : List Metadata) (idsArg : Option (List String))
    (embs : List (List Int)) (hidx : s.index = some vecs) :
    (add_documents s texts mds idsArg embs).entryCount = s.entryCount + texts.length ∧
    (add_documents s texts mds idsArg embs).ids = s.ids ++ idsArg.getD (genIds texts.length) ∧
    (add_documents s texts mds idsArg embs).index = some (vecs ++ embs) := by
  refine ⟨?_, ?_, ?_⟩ <;>
    simp [add_documents, hidx, FAISSState.entryCount]

/-- C1, witness for `claim_C1_amended_add_appends`: a batch with an explicitly
repeated id `x` is appended wholesale. -/
theorem claim_C1_witness :
    oneDocState.index = some [[7]] ∧
    (add_documents oneDocState ["a", "b"] [witMd 0, witMd 1] (some ["x", "x"]) [[1], [2]]).entryCount
        = oneDocState.entryCount + 2 ∧
    (add_documents oneDocState ["a", "b"] [witMd 0, witMd 1] (some ["x", "x"]) [[1], [2]]).ids
        = oneDocState.ids ++ (some ["x", "x"]).getD (genIds 2) ∧
    (add_documents oneDocState ["a", "b"] [witMd 0, witMd 1] (some ["x", "x"]) [[1], [2]]).index
        = some ([[7]] ++ [[1], [2]]) :=
  ⟨rfl, claim_C1_amended_add_appends oneDocState [[7]] ["a", "b"] [witMd 0, witMd 1]
    (some ["x", "x"]) [[1], [2]] rfl⟩

/-- C10: when `add_documents` is called without explicit ids it appends exactly
`doc_0 .. doc_{n-1}` where `n` is the size of that batch alone, so two
successive calls with equally sized batches append identical id values, and
both batches' documents are stored. -/
theorem claim_C10_generated_ids_per_batch (s : FAISSState) (vecs : List (List Int))
    (t1 t2 : List String) (m1 m2 : List Metadata) (e1 e2 : List (List Int))
    (hidx : s.index = some vecs) (hlen : t2.length = t1.length) :
    (add_documents s t1 m1 none e1).ids = s.ids ++ genIds t1.length ∧
    (add_documents (add_documents s t1 m1 none e1) t2 m2 none e2).ids
      = s.ids ++ genIds t1.length ++ genIds t1.length ∧
    (add_documents (add_documents s t1 m1 none e1) t2 m2 none e2).documents
      = s.documents ++ t1 ++ t2 := by
  refine ⟨?_, ?_, ?_⟩ <;>
    simp [add_documents, hidx, hlen]

/-- C10, witness: two one-element batches both get id `doc_0`, and both
documents are stored. -/
theorem claim_C10_witness :
    oneDocState.index = some [[7]] ∧ genIds 1 = ["doc_0"] ∧
    ((add_documents oneDocState ["u"] [witMd 0] none [[1]]).ids
        = oneDocState.ids ++ genIds 1 ∧
     (add_documents (add_documents oneDocState ["u"] [witMd 0] none [[1]]) ["v"] [witMd 0] none [[2]]).ids
        = oneDocState.ids ++ genIds 1 ++ genIds 1 ∧
     (add_documents (add_documents oneDocState ["u"] [witMd 0] none [[1]]) ["v"] [witMd 0] none [[2]]).documents
        = oneDocState.documents ++ ["u"] ++ ["v"]) :=
  ⟨rfl, by decide,
    claim_C10_generated_ids_per_batch oneDocState [[7]] ["u"] ["v"] [witMd 0] [witMd 0]
      [[1]] [[2]] rfl rfl⟩

/-! ### Persistence round-trip and restore (C2, C3) -/

/-- C2: restoring the image produced by persisting a state (with an index
present) yields, whatever the prior in-memory state, an index observationally
identical to the saved one: same `entry_count`, same `dimension`, and the same
ids, vectors and segment metadata lists (hence at every position the same id,
the same exact vector, the same metadata, in the same order). -/
theorem claim_C2_roundtrip (s s0 : FAISSState) (vecs : List (List Int)) (img : DiskState)
    (hidx : s.index = some vecs) (hsave : save_index s = .ok img) :
    (load_index s0 img).2 = true ∧
    (load_index s0 img).1.entryCount = s.entryCount ∧
    (load_index s0 img).1.dimension = s.dimension ∧
    (load_index s0 img).1.ids = s.ids ∧
    (load_index s0 img).1.index = s.index ∧
    (load_index s0 img).1.documents = s.documents ∧
    (load_index s0 img).1.metadatas = s.metadatas := by
  unfold save_index at hsave
  rw [hidx] at hsave
  cases hsave
  exact ⟨rfl, rfl, rfl, rfl, hidx.symm, rfl, rfl⟩

/-- C2, witness: round trip of `witState` through `save_index`/`load_index`,
restoring over a fresh client. -/
theorem claim_C2_witness :
    witState.index = some [[0], [3], [1]] ∧
    save_index witState = .ok (.image [[0], [3], [1]]
      ⟨witState.documents, witState.metadatas, witState.ids, some witState.dimension⟩) ∧
    ((load_index emptyState (.image [[0], [3], [1]]
        ⟨witState.documents, witState.metadatas, witState.ids, some witState.dimension⟩)).2 = true ∧
     (load_index emptyState (.image [[0], [3], [1]]
        ⟨witState.documents, witState.metadatas, witState.ids, some witState.dimension⟩)).1.entryCount
        = witState.entryCount ∧
     (load_index emptyState (.image [[0], [3], [1]]
        ⟨witState.documents, witState.metadatas, witState.ids, some witState.dimension⟩)).1.dimension
        = witState.dimension ∧
     (load_index emptyState (.image [[0], [3], [1]]
        ⟨witState.documents, witState.metadatas, witState.ids, some witState.dimension⟩)).1.ids
        = witState.ids ∧
     (load_index emptyState (.image [[0], [3], [1]]
        ⟨witState.documents, witState.metadatas, witState.ids, some witState.dimension⟩)).1.index
        = witState.index ∧
     (load_index emptyState (.image [[0], [3], [1]]
        ⟨witState.documents, witState.metadatas, witState.ids, some witState.dimension⟩)).1.documents
        = witState.documents ∧
     (load_index emptyState (.image [[0], [3], [1]]
        ⟨witState.documents, witState.metadatas, witState.ids, some witState.dimension⟩)).1.metadatas
        = witState.metadatas) :=
  ⟨rfl, rfl, claim_C2_roundtrip witState emptyState [[0], [3], [1]] _ rfl rfl⟩

/-- C3, counterexample.  On an image that exists but cannot be decoded,
`load_index` catches the exception and returns `false` — the very outcome the
claim reserves for a missing image — instead of failing with the typed error
`CorruptImage` that the spec-modelled `restoreSpec` produces. -/
theorem claim_C3_counterexample :
    load_index emptyState DiskState.corrupt = (emptyState, false) ∧
    restoreSpec emptyState DiskState.corrupt = .error RestoreError.CorruptImage :=
  ⟨rfl, rfl⟩

/-- C3, amended: `load_index` returns `false` both when no persisted image
exists and when an image exists but cannot be decoded (the decoding exception
is caught and swallowed); no `CorruptImage` error is ever signalled.  It
returns `true` exactly on a decodable image. -/
theorem claim_C3_amended_restore (s : FAISSState) :
    load_index s DiskState.absent = (s, false) ∧
    load_index s DiskState.corrupt = (s, false) ∧
    ∀ vecs data, (load_index s (DiskState.image vecs data)).2 = true := by
  exact ⟨rfl, rfl, fun _ _ => rfl⟩

/-! ### Chunker parameter validation and short text (C6, C9) -/

/-- C6, counterexample.  With `target_size = 500 ≤ overlap = 600` the claim
demands an `InvalidParameter` failure from both entry points, but
`chunk_text_smart` performs no validation and simply returns the short text
whole. -/
theorem claim_C6_counterexample :
    (500 : Int) ≤ 600 ∧
    chunk_text_smart ['h', 'i'] 500 600 = .ok [['h', 'i']] :=
  ⟨by decide, rfl⟩

/-- C6, amended: the fixed-width entry point `chunk_text` fails with
`InvalidParameter` whenever `target_size ≤ 0`, `overlap < 0` or
`overlap ≥ target_size`; the smart entry point `chunk_text_smart` has no
validation of its own — under those same bad parameters it still returns
`[text]` whenever the text is short enough (it can only fail later through
the fixed-width fallback). -/
theorem claim_C6_amended_validation (text : List Char) (cs ov : Int)
    (h : cs ≤ 0 ∨ ov < 0 ∨ cs ≤ ov) :
    (∃ msg, chunk_text text cs ov = .error (.InvalidParameter msg)) ∧
    ((text.length : Int) ≤ cs → chunk_text_smart text cs ov = .ok [text]) := by
  constructor
  · unfold chunk_text
    by_cases h1 : cs ≤ 0
    · exact ⟨"chunk_size must be greater than 0", by rw [if_pos h1]⟩
    · by_cases h2 : ov < 0
      · exact ⟨"overlap cannot be negative", by rw [if_neg h1, if_pos h2]⟩
      · have h3 : cs ≤ ov := by omega
        exact ⟨"overlap must be less than chunk_size", by rw [if_neg h1, if_neg h2, if_pos h3]⟩
  · intro hl
    unfold chunk_text_smart
    rw [if_pos hl]

/-- C6, witness for `claim_C6_amended_validation` at `target_size = 500`,
`overlap = 600`, text `"hi"`. -/
theorem claim_C6_witness :
    ((500 : Int) ≤ 0 ∨ (600 : Int) < 0 ∨ (500 : Int) ≤ 600) ∧
    ((∃ msg, chunk_text ['h', 'i'] 500 600 = .error (.InvalidParameter msg)) ∧
     (((['h', 'i'] : List Char).length : Int) ≤ 500 →
        chunk_text_smart ['h', 'i'] 500 600 = .ok [['h', 'i']])) :=
  ⟨by decide, claim_C6_amended_validation ['h', 'i'] 500 600 (by decide)⟩

/-- C9: with valid parameters and `len(text) ≤ target_size`, both the
fixed-width and the smart chunker return the single-element list holding the
whole text unchanged. -/
theorem claim_C9_short_text_whole (text : List Char) (cs ov : Int)
    (h0 : 0 ≤ ov) (h1 : ov < cs) (hlen : (text.length : Int) ≤ cs) :
    chunk_text text cs ov = .ok [text] ∧ chunk_text_smart text cs ov = .ok [text] := by
  constructor
  · unfold chunk_text
    rw [if_neg (by omega), if_neg (by omega), if_neg (by omega), if_pos hlen]
  · unfold chunk_text_smart
    rw [if_pos hlen]

/-- C9, witness: `chunk_text("short", 500, 100) == ["short"]`, and likewise
for the smart variant. -/
theorem claim_C9_witness :
    (0 : Int) ≤ 100 ∧ (100 : Int) < 500 ∧
    (((['s', 'h', 'o', 'r', 't'] : List Char).length : Int) ≤ 500) ∧
    (chunk_text ['s', 'h', 'o', 'r', 't'] 500 100 = .ok [['s', 'h', 'o', 'r', 't']] ∧
     chunk_text_smart ['s', 'h', 'o', 'r', 't'] 500 100 = .ok [['s', 'h', 'o', 'r', 't']]) :=
  ⟨by decide, by decide, by decide,
    claim_C9_short_text_whole ['s', 'h', 'o', 'r', 't'] 500 100 (by decide) (by decide) (by decide)⟩

/-! ### The smart chunker's separator slip (C7) -/

/-- C7: the code is at odds with its own inline comment ("add the separator
back, except for the last part"): it compares `part != parts[-1]` by value, so
a non-final part equal in value to the final one loses its separator.  On
`"a, b, a"` with valid parameters `target_size = 4`, `overlap = 1`, the split
at `", "` gives parts `a`, `b`, `a`; the first `a` equals the last by value,
its `", "` is dropped, and the first returned chunk is `"ab,"` — a string
that does not occur anywhere in the source text (`findSep` returns `none`),
so the returned chunks cannot all be located in the source text in order of
appearance. -/
theorem claim_C7_failing_eval :
    (0 : Int) ≤ 1 ∧ (1 : Int) < 4 ∧
    chunk_text_smart ('a' :: ',' :: ' ' :: 'b' :: ',' :: ' ' :: 'a' :: []) 4 1 =
      .ok [['a', 'b', ','], ['a']] ∧
    findSep ['a', 'b', ','] ('a' :: ',' :: ' ' :: 'b' :: ',' :: ' ' :: 'a' :: []) = none :=
  ⟨by decide, by decide, rfl, rfl⟩

/-! ### Smart chunker termination and size bound (C5) -/

theorem strip_length_le (t : List Char) : (strip t).length ≤ t.length := by
  unfold strip
  rw [List.length_reverse]
  refine le_trans (List.Sublist.length_le (List.dropWhile_sublist _)) ?_
  rw [List.length_reverse]
  exact List.Sublist.length_le (List.dropWhile_sublist _)

theorem flushOf_bound {cur : List Char} {n : Nat} (h : cur.length ≤ n) :
    ∀ c ∈ flushOf cur, c.length ≤ n := by
  intro c hc
  unfold flushOf at hc
  split at hc
  · simp at hc
  · simp at hc
    subst hc
    exact le_trans (strip_length_le cur) h

theorem slideF_length_le (cs s1 : Nat) :
    ∀ fuel t, ∀ c ∈ slideF cs s1 fuel t, c.length ≤ cs := by
  intro fuel
  induction fuel with
  | zero =>
    intro t c hc
    cases t <;> simp [slideF] at hc
  | succ f ih =>
    intro t c hc
    cases t with
    | nil => simp [slideF] at hc
    | cons a rest =>
      simp only [slideF] at hc
      rcases List.mem_cons.mp hc with h | h
      · subst h
        exact List.length_take_le _ _
      · exact ih _ c h

theorem chunk_text_bound {text : List Char} {cs ov : Int} {chunks : List (List Char)}
    (h : chunk_text text cs ov = .ok chunks) : ∀ c ∈ chunks, c.length ≤ cs.toNat := by
  unfold chunk_text at h
  split at h
  · cases h
  split at h
  · cases h
  split at h
  · cases h
  split at h
  · cases h
    intro c hc
    simp at hc
    subst hc
    rename_i h1 h2 h3 h4
    omega
  · cases h
    intro c hc
    exact slideF_length_le _ _ _ _ c hc

theorem assembleGo_bound (csI : Int) (f : List Char → Except ChunkError (List (List Char)))
    (sep lastVal : List Char)
    (hf : ∀ pws chunks, f pws = .ok chunks → ∀ c ∈ chunks, c.length ≤ csI.toNat) :
    ∀ parts cur, cur.length ≤ csI.toNat →
      ∀ chunks, assembleGo csI f sep lastVal parts cur = .ok chunks →
        ∀ c ∈ chunks, c.length ≤ csI.toNat := by
  intro parts
  induction parts with
  | nil =>
    intro cur hcur chunks h c hc
    simp only [assembleGo] at h
    cases h
    exact flushOf_bound hcur c hc
  | cons part more ih =>
    intro cur hcur chunks h c hc
    simp only [assembleGo] at h
    split at h
    · rename_i hfit
      refine ih (cur ++ part_with_sep sep lastVal part) ?_ chunks h c hc
      rw [List.length_append]
      omega
    · split at h
      · rename_i hnofit hbig
        split at h
        · cases h
        · rename_i big hfb
          split at h
          · cases h
          · rename_i tail hft
            cases h
            rcases List.mem_append.mp hc with hc' | hc'
            rcases List.mem_append.mp hc' with hc'' | hc''
            · exact flushOf_bound hcur c hc''
            · exact hf _ big hfb c hc''
            · exact ih [] (Nat.zero_le _) tail hft c hc'
      · rename_i hnofit hnobig
        split at h
        · cases h
        · rename_i tail hft
          cases h
          rcases List.mem_append.mp hc with hc' | hc'
          · exact flushOf_bound hcur c hc'
          · refine ih (part_with_sep sep lastVal part) ?_ tail hft c hc'
            omega

theorem split_text_bound (csI ovI : Int) :
    ∀ seps text chunks, split_text csI ovI seps text = .ok chunks →
      ∀ c ∈ chunks, c.length ≤ csI.toNat := by
  intro seps
  induction seps with
  | nil =>
    intro text chunks h c hc
    simp only [split_text] at h
    split at h
    · cases h; simp at hc
    · split at h
      · cases h
        simp at hc
        subst hc
        rename_i h1 h2
        omega
      · exact chunk_text_bound h c hc
  | cons sep rest ih =>
    intro text chunks h c hc
    simp only [split_text] at h
    split at h
    · cases h; simp at hc
    · split at h
      · cases h
        simp at hc
        subst hc
        rename_i h1 h2
        omega
      · split at h
        · refine assembleGo_bound csI _ _ _ ?_ _ [] (Nat.zero_le _) chunks h c hc
          intro pws chunks' h' c' hc'
          by_cases hre : rest.isEmpty
          · rw [if_pos hre] at h'
            exact chunk_text_bound h' c' hc'
          · rw [if_neg hre] at h'
            exact ih pws chunks' h' c' hc'
        · exact ih text chunks h c hc

theorem chunk_text_isOk (text : List Char) {cs ov : Int} (h0 : 0 ≤ ov) (h1 : ov < cs) :
    ∃ chunks, chunk_text text cs ov = .ok chunks := by
  unfold chunk_text
  rw [if_neg (by omega), if_neg (by omega), if_neg (by omega)]
  split
  · exact ⟨_, rfl⟩
  · exact ⟨_, rfl⟩

theorem assembleGo_isOk (csI : Int) (f : List Char → Except ChunkError (List (List Char)))
    (sep lastVal : List Char) (hf : ∀ pws, ∃ r, f pws = .ok r) :
    ∀ parts cur, ∃ chunks, assembleGo csI f sep lastVal parts cur = .ok chunks := by
  intro parts
  induction parts with
  | nil => intro cur; exact ⟨_, rfl⟩
  | cons part more ih =>
    intro cur
    simp only [assembleGo]
    split
    · exact ih _
    · split
      · obtain ⟨r, hr⟩ := hf (part_with_sep sep lastVal part)
        rw [hr]
        obtain ⟨t, ht⟩ := ih []
        rw [ht]
        exact ⟨_, rfl⟩
      · obtain ⟨t, ht⟩ := ih (part_with_sep sep lastVal part)
        rw [ht]
        exact ⟨_, rfl⟩

theorem split_text_isOk {csI ovI : Int} (h0 : 0 ≤ ovI) (h1 : ovI < csI) :
    ∀ seps text, ∃ chunks, split_text csI ovI seps text = .ok chunks := by
  intro seps
  induction seps with
  | nil =>
    intro text
    simp only [split_text]
    split
    · exact ⟨_, rfl⟩
    · split
      · exact ⟨_, rfl⟩
      · exact chunk_text_isOk text h0 h1
  | cons sep rest ih =>
    intro text
    simp only [split_text]
    split
    · exact ⟨_, rfl⟩
    · split
      · exact ⟨_, rfl⟩
      · split
        · apply assembleGo_isOk
          intro pws
          by_cases hre : rest.isEmpty
          · rw [if_pos hre]
            exact chunk_text_isOk pws h0 h1
          · rw [if_neg hre]
            exact ih pws
        · exact ih text

theorem claim_C5_chunks_bounded (cs ov : Int) (text : List Char)
    (h0 : 0 ≤ ov) (h1 : ov < cs) :
    (∃ chunks, chunk_text_smart text cs ov = .ok chunks ∧
      ∀ c ∈ chunks, c.length ≤ cs.toNat) ∧
    (∃ chunks, chunk_text text cs ov = .ok chunks ∧
      ∀ c ∈ chunks, c.length ≤ cs.toNat) := by
  constructor
  · unfold chunk_text_smart
    split
    · refine ⟨[text], rfl, ?_⟩
      intro c hc
      simp at hc
      subst hc
      rename_i hlen
      omega
    · obtain ⟨chunks, hch⟩ := split_text_isOk h0 h1 defaultSeparators text
      rw [hch]
      refine ⟨_, rfl, ?_⟩
      intro c hc
      exact split_text_bound cs ov _ _ _ hch c (List.mem_filter.mp hc).1
  · obtain ⟨chunks, hch⟩ := chunk_text_isOk text h0 h1
    exact ⟨chunks, hch, chunk_text_bound hch⟩

/-- C5, witness for `claim_C5_chunks_bounded` at `target_size = 3`,
`overlap = 1`, text `"ab ab"`. -/
theorem claim_C5_witness :
    (0 : Int) ≤ 1 ∧ (1 : Int) < 3 ∧
    ((∃ chunks, chunk_text_smart ['a', 'b', ' ', 'a', 'b'] 3 1 = .ok chunks ∧
        ∀ c ∈ chunks, c.length ≤ (3 : Int).toNat) ∧
     (∃ chunks, chunk_text ['a', 'b', ' ', 'a', 'b'] 3 1 = .ok chunks ∧
        ∀ c ∈ chunks, c.length ≤ (3 : Int).toNat)) :=
  ⟨by decide, by decide,
    claim_C5_chunks_bounded 3 1 ['a', 'b', ' ', 'a', 'b'] (by decide) (by decide)⟩

/-! ### Fixed-width chunking windows (C8) -/

theorem windowStarts_zero (step : Nat) : windowStarts 0 step = [] := by
  unfold windowStarts
  have h : (0 + step - 1) / step = 0 := by
    rcases Nat.eq_zero_or_pos step with h | h
    · subst h; rfl
    · exact Nat.div_eq_of_lt (by omega)
  rw [h]
  rfl

theorem windowStarts_succ (len step : Nat) (hstep : 0 < step) (hlen : 0 < len) :
    windowStarts len step = 0 :: (windowStarts (len - step) step).map (fun s => s + step) := by
  unfold windowStarts
  have hnum : (len + step - 1) / step = ((len - step) + step - 1) / step + 1 := by
    rcases Nat.le_total len step with h | h
    · have h1 : len + step - 1 = (len - 1) + step := by omega
      have h2 : len - step = 0 := by omega
      rw [h1, Nat.add_div_right _ hstep, h2]
      have h3 : (len - 1) / step = 0 := Nat.div_eq_of_lt (by omega)
      have h4 : (0 + step - 1) / step = 0 := Nat.div_eq_of_lt (by omega)
      rw [h3, h4]
    · have h1 : len + step - 1 = ((len - step) + step - 1) + step := by omega
      rw [h1, Nat.add_div_right _ hstep]
  rw [hnum, List.range_succ_eq_map]
  simp only [List.map_cons, List.map_map, Nat.zero_mul]
  congr 1
  apply List.map_congr_left
  intro j hj
  simp [Function.comp, Nat.succ_mul]

theorem slideF_eq_windows (cs s1 : Nat) :
    ∀ fuel (t : List Char), t.length ≤ fuel →
      slideF cs s1 fuel t =
        (windowStarts t.length (s1 + 1)).map (fun s => (t.drop s).take cs) := by
  intro fuel
  induction fuel with
  | zero =>
    intro t ht
    have h : t = [] := List.length_eq_zero.mp (by omega)
    subst h
    simp [slideF, windowStarts_zero]
  | succ f ih =>
    intro t ht
    cases t with
    | nil => simp [slideF, windowStarts_zero]
    | cons a rest =>
      rw [windowStarts_succ _ _ (by omega) (by simp)]
      simp only [slideF, List.map_cons, List.map_map, List.drop_zero]
      congr 1
      rw [ih ((a :: rest).drop (s1 + 1))
        (by simp only [List.length_drop, List.length_cons] at ht ⊢; omega)]
      rw [List.length_drop]
      apply List.map_congr_left
      intro s hs
      simp only [Function.comp, List.drop_drop]
      rw [Nat.add_comm s (s1 + 1)]

theorem windowStarts_coverage (len step cs : Nat) (hstep : 0 < step) (hsc : step ≤ cs) :
    ∀ i < len, ∃ s ∈ windowStarts len step, s ≤ i ∧ i < s + cs := by
  intro i hi
  refine ⟨i / step * step, ?_, Nat.div_mul_le_self i step, ?_⟩
  · unfold windowStarts
    refine List.mem_map.mpr ⟨i / step, List.mem_range.mpr ?_, rfl⟩
    have h1 : len + step - 1 = (len - 1) + step := by omega
    rw [h1, Nat.add_div_right _ hstep]
    have h2 : i / step ≤ (len - 1) / step := Nat.div_le_div_right (by omega)
    omega
  · have h2 := Nat.div_add_mod i step
    rw [Nat.mul_comm] at h2
    have h3 : i % step < step := Nat.mod_lt _ hstep
    omega

theorem windowStarts_chain (len step cs : Nat) (h : step < cs) :
    (windowStarts len step).Chain' (fun a b => b < a + cs) := by
  unfold windowStarts
  rw [List.chain'_map]
  cases hn : (len + step - 1) / step with
  | zero => simp
  | succ m =>
    rw [List.chain'_range_succ]
    intro j hj
    have hsm := Nat.succ_mul j step
    omega

/-- C8, amended: for valid parameters and `len(text) > target_size`,
`chunk_text` returns exactly the windows `text[s : s + target_size]` for
`s = 0, step, 2*step, ...` (`step = target_size - overlap`) while `s < len`;
the windows cover every position of the text, and consecutive chunks overlap
whenever `overlap > 0` (with `overlap = 0` they are adjacent, not
overlapping). -/
theorem claim_C8_amended_windows (text : List Char) (cs ov : Int)
    (h0 : 0 ≤ ov) (h1 : ov < cs) (hlen : cs < (text.length : Int)) :
    chunk_text text cs ov =
      .ok ((windowStarts text.length (cs.toNat - ov.toNat)).map
        (fun s => (text.drop s).take cs.toNat)) ∧
    (∀ i < text.length, ∃ s ∈ windowStarts text.length (cs.toNat - ov.toNat),
      s ≤ i ∧ i < s + cs.toNat) ∧
    (0 < ov →
      (windowStarts text.length (cs.toNat - ov.toNat)).Chain'
        (fun a b => b < a + cs.toNat)) := by
  have hst : 0 < cs.toNat - ov.toNat := by omega
  refine ⟨?_, ?_, ?_⟩
  · unfold chunk_text
    rw [if_neg (by omega), if_neg (by omega), if_neg (by omega), if_neg (by omega)]
    congr 1
    rw [slideF_eq_windows cs.toNat (cs.toNat - ov.toNat - 1) text.length text le_rfl]
    rw [show cs.toNat - ov.toNat - 1 + 1 = cs.toNat - ov.toNat from by omega]
  · exact windowStarts_coverage _ _ _ hst (by omega)
  · intro hov
    exact windowStarts_chain _ _ _ (by omega)

/-- C8, counterexample.  `overlap = 0` is a valid parameter
(`target_size > overlap ≥ 0`), yet the windows of
`chunk_text("abcd", 2, 0)` start at 0 and 2 and share no position: consecutive
chunks do *not* overlap, refuting the claim's unconditional "so consecutive
chunks overlap". -/
theorem claim_C8_counterexample :
    ((0 : Int) ≤ 0 ∧ (0 : Int) < 2 ∧
      (2 : Int) < ((['a', 'b', 'c', 'd'] : List Char).length : Int)) ∧
    chunk_text ['a', 'b', 'c', 'd'] 2 0 = .ok [['a', 'b'], ['c', 'd']] ∧
    windowStarts 4 2 = [0, 2] ∧
    ¬ List.Chain' (fun a b => b < a + 2) [0, 2] :=
  ⟨by decide, rfl, by decide, by simp [List.chain'_cons]⟩

/-- C8, witness for `claim_C8_amended_windows` at `"abcd"`, `target_size = 3`,
`overlap = 1`. -/
theorem claim_C8_witness :
    (0 : Int) ≤ 1 ∧ (1 : Int) < 3 ∧
    (3 : Int) < ((['a', 'b', 'c', 'd'] : List Char).length : Int) ∧
    (chunk_text ['a', 'b', 'c', 'd'] 3 1 =
      .ok ((windowStarts (['a', 'b', 'c', 'd'] : List Char).length ((3 : Int).toNat - (1 : Int).toNat)).map
        (fun s => ((['a', 'b', 'c', 'd'] : List Char).drop s).take (3 : Int).toNat)) ∧
     (∀ i < (['a', 'b', 'c', 'd'] : List Char).length,
        ∃ s ∈ windowStarts (['a', 'b', 'c', 'd'] : List Char).length ((3 : Int).toNat - (1 : Int).toNat),
          s ≤ i ∧ i < s + (3 : Int).toNat) ∧
     ((0 : Int) < 1 →
        (windowStarts (['a', 'b', 'c', 'd'] : List Char).length ((3 : Int).toNat - (1 : Int).toNat)).Chain'
          (fun a b => b < a + (3 : Int).toNat))) :=
  ⟨by decide, by decide, by decide,
    claim_C8_amended_windows ['a', 'b', 'c', 'd'] 3 1 (by decide) (by decide) (by decide)⟩

/-! ### Query engine: over-fetch then filter (C4) -/

/-- The collection loop, run below its break threshold, returns exactly the
first `k - |acc|` filter-passing candidates (in candidate order) appended to
what was already collected. -/
theorem collectLoop_eq (s : FAISSState) (w : Option (Metadata → Bool)) (k : Nat) :
    ∀ cands acc, acc.length < k →
      collectLoop s w k cands acc =
        acc.reverse ++
          ((cands.filter (fun c => passWhere w (s.metadatas.getD c.1 Metadata.dflt))).take
            (k - acc.length)).map (toTriple s) := by
  intro cands
  induction cands with
  | nil => intro acc hacc; simp [collectLoop]
  | cons c rest ih =>
    intro acc hacc
    simp only [collectLoop]
    by_cases hp : passWhere w (s.metadatas.getD c.1 Metadata.dflt)
    · rw [if_pos hp, List.filter_cons_of_pos (by simpa using hp)]
      by_cases hk : k ≤ (toTriple s c :: acc).length
      · rw [if_pos hk]
        have hkeq : k - acc.length = 1 := by
          simp only [List.length_cons] at hk
          omega
        rw [hkeq, List.take_succ_cons, List.take_zero]
        simp
      · rw [if_neg hk]
        have hlt : (toTriple s c :: acc).length < k := by omega
        rw [ih _ hlt]
        have h1 : k - acc.length = (k - (toTriple s c :: acc).length) + 1 := by
          simp only [List.length_cons]
          simp only [List.length_cons] at hk
          omega
        rw [h1, List.take_succ_cons]
        simp
    · rw [if_neg hp, List.filter_cons_of_neg (by simpa using hp)]
      exact ih _ hacc

/-- C4: on a non-empty index, a query of the index's dimension, positive `k`
and an optional metadata predicate, `search` ranks all stored vectors by
ascending squared Euclidean distance (`rankedCandidates` is a sorted
permutation of the distance-annotated entries), keeps the `min(2·k,
entry_count)` nearest, applies the predicate to them in ascending-distance
order and returns the first at most `k` that pass, as
(text, metadata, distance) triples. -/
theorem claim_C4_search_overfetch_filter (s : FAISSState) (vecs : List (List Int))
    (q : List Int) (k : Nat) (w : Option (Metadata → Bool))
    (hidx : s.index = some vecs) (hne : vecs ≠ []) (hk : 0 < k)
    (hdim : ∀ v ∈ vecs, v.length = s.dimension) (hq : q.length = s.dimension) :
    List.Sorted candLE (rankedCandidates vecs q) ∧
    List.Perm (rankedCandidates vecs q) (vecs.enum.map (fun p => (p.1, sqDist q p.2))) ∧
    FAISSState.search s q k w =
      .ok (((((rankedCandidates vecs q).take (min (2 * k) vecs.length)).filter
              (fun c => passWhere w (s.metadatas.getD c.1 Metadata.dflt))).take k).map
        (toTriple s)) := by
  refine ⟨List.sorted_insertionSort candLE _, List.perm_insertionSort candLE _, ?_⟩
  unfold FAISSState.search
  rw [hidx]
  dsimp only
  rw [if_neg (by simpa using hne)]
  rw [collectLoop_eq s w k _ [] (by simpa using hk)]
  simp [Nat.mul_comm]

/-- C4, witness for `claim_C4_search_overfetch_filter` on the three-entry
`witState` with `k = 1` and no predicate. -/
theorem claim_C4_witness :
    witState.index = some [[0], [3], [1]] ∧ ([[0], [3], [1]] : List (List Int)) ≠ [] ∧ 0 < 1 ∧
    (List.Sorted candLE (rankedCandidates [[0], [3], [1]] [0]) ∧
     List.Perm (rankedCandidates [[0], [3], [1]] [0])
       (([[0], [3], [1]] : List (List Int)).enum.map (fun p => (p.1, sqDist [0] p.2))) ∧
     FAISSState.search witState [0] 1 none =
       .ok (((((rankedCandidates [[0], [3], [1]] [0]).take
                 (min (2 * 1) ([[0], [3], [1]] : List (List Int)).length)).filter
               (fun c => passWhere none (witState.metadatas.getD c.1 Metadata.dflt))).take 1).map
         (toTriple witState))) :=
  ⟨rfl, by decide, by decide,
    claim_C4_search_overfetch_filter witState [[0], [3], [1]] [0] 1 none rfl (by decide)
      (by decide) (by decide) rfl⟩
